import Mathlib

/-!
# Verification of the nnexp genomic interval alignment and rasterization engine

Shallow embedding of the core logic of `nnexp/tcga_imaging.py` and
`nnexp/tcga_analysis.py`: the value-range check and normalization used by
`create_image_full_union`, the gene-version resolution of `gene_to_interval`,
the breakpoint-set builder of `get_all_genomic_breakpoints`, the breakpoint
text artifact writer/reader pair, and the protein-expression value coercion
of `most_different_genes`.

Numeric values carried by the Python code are floats; they are embedded as
rationals (`ℚ`), with the float-to-uint8 cast of numpy modelled exactly as
truncation toward zero followed by a two's-complement wrap modulo 256.
-/

/-- Python `math.isclose(a, b, rel_tol=1e-5)` (with the default `abs_tol=0`):
`|a - b| <= max(rel_tol * |a|, rel_tol * |b|)`.  Used at
`tcga_imaging.py:48`. -/
def mathIsClose (a b : ℚ) : Bool :=
  decide (|a - b| ≤ 1/100000 * max |a| |b|)

/-- `tcga_imaging.value_within_range` (lines 44-52): accept when the value is
close to either boundary or lies inside the closed interval. -/
def value_within_range (value minimum maximum : ℚ) : Bool :=
  if mathIsClose value minimum || mathIsClose value maximum then true
  else if decide (minimum ≤ value) && decide (value ≤ maximum) then true
  else false

/-- Truncation toward zero of a rational, as performed by a C float-to-integer
cast (numpy first truncates the float toward zero). -/
def ratTrunc (q : ℚ) : ℤ := if 0 ≤ q then ⌊q⌋ else ⌈q⌉

/-- `np.uint8(x)` applied to a float `x`: truncate toward zero, then reduce
modulo 256 (two's-complement wrap).  No clamping and no range check. -/
def np_uint8 (q : ℚ) : ℕ := ((ratTrunc q) % 256).toNat

/-- `tcga_imaging.py:134`:
`value_normalized = np.uint8((float(value) - float(minimum)) / float(maximum) * 255)`.
Note the divisor is `maximum`, not `maximum - minimum`. -/
def value_normalized (value minimum maximum : ℚ) : ℕ :=
  np_uint8 ((value - minimum) / maximum * 255)

/-- Modelled from the spec: section 4.4 states the normalizer computes
`floor((value − min) / (max − min) × 255)`, truncated/cast to an 8-bit
unsigned integer.  Stated here only to compare against the code's
`value_normalized`. -/
def normalize_spec (value minimum maximum : ℚ) : ℕ :=
  ((⌊(value - minimum) / (maximum - minimum) * 255⌋) % 256).toNat

/-! ## Raster compositor (`create_image_full_union`, lines 122-142)

The inner loop processes one interval of one channel and one chromosome row:
check the value against the modality's range (raising `ValueError` when the
check fails), normalize it, look the start and stop coordinates up in the
chromosome's sorted breakpoint list (`SortedList.index`, which raises when
the coordinate is absent), and fill the columns from the start index to the
stop index inclusive.  Failures are modelled with `Except`.  The model works
on a single row (one chromosome, one channel), which is how the source loop
touches `img`: `img[row_index][col_index][channel_index]`. -/

/-- `SortedList.index(x)`: position of `x` in the sorted list; raises
(`none`) when the coordinate is absent. -/
def slIndex (l : List ℕ) (x : ℕ) : Option ℕ :=
  if x ∈ l then some (l.indexOf x) else none

/-- `for col_index in range(start_index, stop_index + 1): row[col_index] = v`
(the `i` argument is the index of the head of `row` in the full row). -/
def fillRangeAux (row : List ℕ) (i s t v : ℕ) : List ℕ :=
  match row with
  | [] => []
  | x :: rest => (if s ≤ i ∧ i ≤ t then v else x) :: fillRangeAux rest (i+1) s t v

/-- Overwrite the columns of `row` with indices in `[s, t]` by `v`. -/
def fillRange (row : List ℕ) (s t v : ℕ) : List ℕ := fillRangeAux row 0 s t v

/-- Body of the interval loop of `create_image_full_union` (lines 132-142)
for one interval `(start, stop, value)` on one chromosome row. -/
def processInterval (bps : List ℕ) (minimum maximum : ℚ) (row : List ℕ)
    (iv : ℕ × ℕ × ℚ) : Except String (List ℕ) :=
  if value_within_range iv.2.2 minimum maximum = false then
    .error "Given value does not fall in the min/max range"
  else
    match slIndex bps iv.1, slIndex bps iv.2.1 with
    | some si, some ti => .ok (fillRange row si ti (value_normalized iv.2.2 minimum maximum))
    | _, _ => .error "coordinate is not in the breakpoint list"

/-- The part of `processInterval` after the range check succeeded:
"processing continues". -/
def processIntervalChecked (bps : List ℕ) (minimum maximum : ℚ) (row : List ℕ)
    (iv : ℕ × ℕ × ℚ) : Except String (List ℕ) :=
  match slIndex bps iv.1, slIndex bps iv.2.1 with
  | some si, some ti => .ok (fillRange row si ti (value_normalized iv.2.2 minimum maximum))
  | _, _ => .error "coordinate is not in the breakpoint list"

/-- One chromosome row and one channel of `create_image_full_union`:
fold the interval loop over the channel's intervals for that chromosome;
the first raised error aborts the patient's image. -/
def rasterizeRow (bps : List ℕ) (minimum maximum : ℚ) (row : List ℕ)
    (ivs : List (ℕ × ℕ × ℚ)) : Except String (List ℕ) :=
  ivs.foldlM (fun r iv => processInterval bps minimum maximum r iv) row

/-! ## Gene resolution (`gene_to_interval`, `tcga_imaging.py` lines 164-180)

For each gene, `gtf.get_gene_entries` returns a list of candidate annotation
records.  With no candidate the gene is skipped (`continue`).  With more than
one, the code computes the highest `gene_version`; if more than one record
attains it, the gene is skipped; if none does, a `RuntimeError` is raised
(unreachable); otherwise the unique highest-version record is used. -/

/-- One annotation record, as consumed by `gene_to_interval`
(a `gtf_parser` entry: only the fields the resolution logic reads). -/
structure GtfEntry where
  chromosome : String
  start : ℕ
  stop : ℕ
  gene_version : ℤ
  deriving DecidableEq

/-- Python `max` over a list of integers (`highest_version = max(entry_versions)`,
line 171; the argument is never empty there). -/
def pyMax : List ℤ → ℤ
  | [] => 0
  | v :: vs => vs.foldl max v

/-- The highest `gene_version` among the candidate records. -/
def maxVersion (entries : List GtfEntry) : ℤ :=
  pyMax (entries.map fun e => e.gene_version)

/-- The record-selection logic of `gene_to_interval` (lines 164-180):
`.ok none` models `continue` (gene skipped), `.ok (some e)` models selecting
record `e`, `.error` models the `RuntimeError` branch. -/
def gene_to_interval_resolve (entries : List GtfEntry) : Except String (Option GtfEntry) :=
  match entries with
  | [] => .ok none
  | [e] => .ok (some e)
  | e1 :: e2 :: rest =>
    let highest := maxVersion (e1 :: e2 :: rest)
    match (e1 :: e2 :: rest).filter (fun e => e.gene_version == highest) with
    | [] => .error "Could not identify a highest version"
    | [e] => .ok (some e)
    | _ :: _ :: _ => .ok none

/-! ## Breakpoint set builder (`get_all_genomic_breakpoints`,
`tcga_analysis.py` lines 114-139)

`chromosome_breakpoints` is a `defaultdict(SortedSet)`: a mapping from
chromosome to a set of coordinates.  For every supplied per-chromosome
interval collection, and every `(start, stop)` interval key in it, both
coordinates are added to the chromosome's set.  A `SortedSet` is determined
by its membership (its iteration order is canonical ascending order), so the
state is embedded as a function from chromosome to `Finset ℕ`. -/

/-- A per-chromosome interval collection: for each chromosome, the list of
`(start, stop)` keys of its sorted interval dictionary. -/
abbrev IntervalColl := List (String × List (ℕ × ℕ))

/-- The breakpoint state: chromosome → set of coordinates. -/
abbrev BreakpointSet := String → Finset ℕ

/-- `chromosome_breakpoints[chromosome].add(x)` (lines 135-136). -/
def insertCoord (bps : BreakpointSet) (chrom : String) (x : ℕ) : BreakpointSet :=
  fun c => if c = chrom then insert x (bps c) else bps c

/-- Add both coordinates of one interval key (lines 134-136). -/
def insertIntervalKey (bps : BreakpointSet) (chrom : String) (ss : ℕ × ℕ) : BreakpointSet :=
  insertCoord (insertCoord bps chrom ss.1) chrom ss.2

/-- Process one chromosome of one collection (lines 133-136). -/
def insertChromEntry (bps : BreakpointSet) (e : String × List (ℕ × ℕ)) : BreakpointSet :=
  e.2.foldl (fun b ss => insertIntervalKey b e.1 ss) bps

/-- Process the chromosomes of one collection (lines 132-136). -/
def insertColl (bps : BreakpointSet) (coll : IntervalColl) : BreakpointSet :=
  coll.foldl insertChromEntry bps

/-- Build the breakpoint set from all supplied collections, starting from
the empty `defaultdict` (line 114). -/
def buildBreakpoints (colls : List IntervalColl) : BreakpointSet :=
  colls.foldl insertColl (fun _ => ∅)

/-! ## Protein-expression value coercion (`most_different_genes`,
`tcga_analysis.py` lines 50-56)

`float(entry[exp_key])` is attempted; on `ValueError`, the known header
sentinel `"Protein Expression"` is skipped (`continue`), any other
unparseable value re-raises.  Python's `float` builtin is external to the
repository, so it enters as a parameter. -/

/-- The `try: float(...) / except ValueError:` block of lines 50-56.
`pyFloat` stands for Python's `float` builtin (`none` = `ValueError`);
`.ok (some x)` appends the parsed value, `.ok none` models `continue`. -/
def coerceProtValue (pyFloat : String → Option ℚ) (s : String) : Except String (Option ℚ) :=
  match pyFloat s with
  | some x => .ok (some x)
  | none =>
    if s = "Protein Expression" then .ok none
    else .error ("Cannot parse the following value as float: " ++ s)

/-! ## Breakpoint text artifact

Writer (`get_all_genomic_breakpoints`, `tcga_analysis.py` lines 146-152):
one line per chromosome,
`handle.write(chromosome + ": " + ','.join([str(x) for x in breakpoints]) + "\n")`.

Reader (`create_image_full_union`, `tcga_imaging.py` lines 93-98):
for each line, `line.rstrip()`, `chromosome, points = line.split(": ")`,
`SortedList([int(x) for x in points.split(",")])`.

Strings are embedded as `List Char`; Python's `str`/`int` on canonical
decimal naturals are embedded as `natToChars`/`parseNat` (genomic
coordinates are nonnegative integers).  The per-chromosome mapping is an
association list in dict insertion order, and reading collects the parsed
entries in line order (Python dict keys written from a dict are unique, so
repeated-key overwriting never occurs on a written artifact). -/

/-- Characters stripped by Python's `str.rstrip()` (the whitespace that can
occur in this artifact). -/
def isPyWS (c : Char) : Bool :=
  c == ' ' || c == '\n' || c == '\t' || c == '\r'

/-- Python `line.rstrip()`: drop trailing whitespace. -/
def rstrip (l : List Char) : List Char :=
  (l.reverse.dropWhile isPyWS).reverse

/-- Python `s.split(sep)` for a one-character separator `sep`. -/
def splitOnChar (sep : Char) : List Char → List (List Char)
  | [] => [[]]
  | c :: rest =>
    if c = sep then [] :: splitOnChar sep rest
    else
      match splitOnChar sep rest with
      | [] => [[c]]
      | p :: ps => (c :: p) :: ps

/-- Python `sep.join(pieces)` for a one-character separator. -/
def intercalateChar (sep : Char) : List (List Char) → List Char
  | [] => []
  | p :: ps =>
    match ps with
    | [] => p
    | _ :: _ => p ++ sep :: intercalateChar sep ps

/-- Python `line.split(": ")`: split on every (leftmost-first,
non-overlapping) occurrence of the two-character separator. -/
def splitColonSpace : List Char → List (List Char)
  | [] => [[]]
  | [c] => [[c]]
  | c1 :: c2 :: rest =>
    if c1 = ':' ∧ c2 = ' ' then [] :: splitColonSpace rest
    else
      match splitColonSpace (c2 :: rest) with
      | [] => [[c1]]
      | p :: ps => (c1 :: p) :: ps

/-- Decimal digits of `n`, most significant first (`fuel ≥ n` suffices). -/
def natToCharsAux : ℕ → ℕ → List Char
  | 0, _ => []
  | _ + 1, 0 => []
  | fuel + 1, n + 1 =>
    natToCharsAux fuel ((n + 1) / 10) ++ [Nat.digitChar ((n + 1) % 10)]

/-- Python `str(n)` for a natural number. -/
def natToChars (n : ℕ) : List Char :=
  if n = 0 then ['0'] else natToCharsAux n n

/-- Python `int(s)` restricted to canonical decimal naturals: raises
(`none`) on an empty string or any non-digit character. -/
def parseNat (cs : List Char) : Option ℕ :=
  if cs ≠ [] ∧ cs.all Char.isDigit then
    some (cs.foldl (fun a c => a * 10 + (c.toNat - 48)) 0)
  else none

/-- Insert into a sorted list, keeping it sorted. -/
def insertSorted (x : ℕ) : List ℕ → List ℕ
  | [] => [x]
  | y :: ys => if x ≤ y then x :: y :: ys else y :: insertSorted x ys

/-- `SortedList(iterable)`: the input sequence in ascending order. -/
def sortNat (l : List ℕ) : List ℕ := l.foldr insertSorted []

/-- One written line (without the trailing newline), `tcga_analysis.py:152`. -/
def breakpoint_line (e : List Char × List ℕ) : List Char :=
  e.1 ++ ':' :: ' ' :: intercalateChar ',' (e.2.map natToChars)

/-- The breakpoint artifact's file content: each line followed by `'\n'`. -/
def write_breakpoints_file (bps : List (List Char × List ℕ)) : List Char :=
  (bps.map breakpoint_line).foldr (fun l acc => l ++ '\n' :: acc) []

/-- Python file iteration: the chunks between newlines, without a trailing
empty chunk when the file ends in a newline. -/
def fileLines (content : List Char) : List (List Char) :=
  let ps := splitOnChar '\n' content
  if ps.getLast? = some [] then ps.dropLast else ps

/-- `[int(x) for x in pieces]`: parse every piece, failing (raising) as soon
as one piece fails. -/
def parseNats : List (List Char) → Option (List ℕ)
  | [] => some []
  | p :: ps =>
    match parseNat p, parseNats ps with
    | some n, some ns => some (n :: ns)
    | _, _ => none

/-- Parse one line of the artifact (`tcga_imaging.py` lines 95-98);
`none` models the exceptions (`ValueError` from unpacking or from `int`). -/
def parse_breakpoint_line (line : List Char) : Option (List Char × List ℕ) :=
  match splitColonSpace (rstrip line) with
  | [chrom, pts] =>
    match parseNats (splitOnChar ',' pts) with
    | some coords => some (chrom, sortNat coords)
    | none => none
  | _ => none

/-- Parse every line of the artifact, in order, failing on the first bad
line. -/
def parseLines : List (List Char) → Option (List (List Char × List ℕ))
  | [] => some []
  | l :: ls =>
    match parse_breakpoint_line l, parseLines ls with
    | some e, some es => some (e :: es)
    | _, _ => none

/-- Read the artifact back (`tcga_imaging.py` lines 93-98): the parsed
`(chromosome, coordinates)` entries in line order. -/
def read_breakpoints_file (content : List Char) : Option (List (List Char × List ℕ)) :=
  parseLines (fileLines content)

/-! ## Concrete inputs used by the witness theorems -/

/-- A version-1 annotation record for the witness of the gene-resolution
claim. -/
def entryV1 : GtfEntry := ⟨"chr7", 1000, 2000, 1⟩

/-- A version-2 annotation record for the same gene. -/
def entryV2 : GtfEntry := ⟨"chr7", 1005, 2005, 2⟩

/-- A one-chromosome interval collection. -/
def collA : IntervalColl := [("chr1", [(0, 5)])]

/-- A second one-chromosome interval collection. -/
def collB : IntervalColl := [("chr2", [(3, 7)])]

/-- A one-patient collection list for the completeness witness. -/
def collsC : List IntervalColl := [[("chr1", [(2, 9), (9, 14)])]]

/-- A two-chromosome breakpoint mapping for the round-trip witness. -/
def bpsW : List (List Char × List ℕ) :=
  [(['c', 'h', 'r', '1'], [3, 10, 25]), (['c', 'h', 'r', '2'], [5])]

/-! # Theorems -/

/-! ## Helper lemmas about the range check -/

/-- `value_within_range` as a single boolean expression. -/
theorem value_within_range_eq (v mn mx : ℚ) :
    value_within_range v mn mx =
      (mathIsClose v mn || mathIsClose v mx ||
        (decide (mn ≤ v) && decide (v ≤ mx))) := by
  simp only [value_within_range]
  by_cases h1 : (mathIsClose v mn || mathIsClose v mx) = true
  · simp [h1]
  · simp only [Bool.not_eq_true] at h1
    simp only [h1, Bool.false_or, if_false]
    by_cases h2 : (decide (mn ≤ v) && decide (v ≤ mx)) = true
    · simp [h2]
    · simp only [Bool.not_eq_true] at h2
      simp [h2]

/-- The range check fails exactly on values strictly outside `[min, max]`
that are close to neither boundary. -/
theorem value_within_range_false_iff (v mn mx : ℚ) :
    value_within_range v mn mx = false ↔
      ((v < mn ∨ mx < v) ∧ mathIsClose v mn = false ∧ mathIsClose v mx = false) := by
  rw [value_within_range_eq]
  simp only [Bool.or_eq_false_iff, Bool.and_eq_false_iff,
    decide_eq_false_iff_not, not_le]
  constructor
  · rintro ⟨⟨h1, h2⟩, h3 | h3⟩
    · exact ⟨Or.inl h3, h1, h2⟩
    · exact ⟨Or.inr h3, h1, h2⟩
  · rintro ⟨h3 | h3, h1, h2⟩
    · exact ⟨⟨h1, h2⟩, Or.inl h3⟩
    · exact ⟨⟨h1, h2⟩, Or.inr h3⟩

/-! ## C3: out-of-range values abort rasterization, tolerated values proceed -/

/-- C3.  A value outside `[min, max]` that is not within relative tolerance
1e-5 of either boundary fails the check, and the rasterization step for that
interval raises (no clamping); a value inside the range or within tolerance
of a boundary passes the check and processing continues with the normalized
value. -/
theorem out_of_range_rejection (v mn mx : ℚ) (bps row : List ℕ) (s t : ℕ) :
    (value_within_range v mn mx = false ↔
      ((v < mn ∨ mx < v) ∧ mathIsClose v mn = false ∧ mathIsClose v mx = false))
    ∧ (value_within_range v mn mx = false →
        processInterval bps mn mx row (s, t, v) =
          .error "Given value does not fall in the min/max range")
    ∧ (value_within_range v mn mx = true →
        processInterval bps mn mx row (s, t, v) =
          processIntervalChecked bps mn mx row (s, t, v)) := by
  refine ⟨value_within_range_false_iff v mn mx, ?_, ?_⟩
  · intro h
    simp [processInterval, h]
  · intro h
    simp [processInterval, processIntervalChecked, h]

/-- Witness for C3: the value 20 with range `[0, 10]` is rejected. -/
theorem out_of_range_rejection_witness :
    processInterval [0, 10] 0 10 [0, 0] (0, 10, 20) =
      .error "Given value does not fall in the min/max range" := by
  refine (out_of_range_rejection 20 0 10 [0, 10] [0, 0] 0 10).2.1 ?_
  rw [value_within_range_eq]
  simp only [mathIsClose, decide_eq_false_iff_not, Bool.or_eq_false_iff,
    Bool.and_eq_false_iff, decide_eq_true_eq]
  norm_num

/-! ## C1: the normalizer divides by `max`, not by `max - min` -/

/-- C1 (code bug).  At `value = 2`, `min = 1`, `max = 2` the value passes the
range check, the specified formula `floor((value-min)/(max-min)*255)` gives
255, but `tcga_imaging.py:134` computes `np.uint8((value-min)/max*255)`,
which is 127: the code divides by `max` instead of `max - min`, so
`normalize(max, min, max) = 255` fails whenever `min ≠ 0`. -/
theorem normalize_divisor_bug :
    value_within_range 2 1 2 = true ∧
    value_normalized 2 1 2 = 127 ∧
    normalize_spec 2 1 2 = 255 ∧
    (127 : ℕ) ≠ 255 := by
  refine ⟨?_, ?_, ?_, by decide⟩
  · rw [value_within_range_eq]
    have h : mathIsClose 2 2 = true := by
      simp only [mathIsClose, decide_eq_true_eq]
      norm_num
    simp [h]
  · simp only [value_normalized, np_uint8, ratTrunc]
    norm_num
    rfl
  · simp only [normalize_spec]
    norm_num
    rfl

/-! ## C10: the uint8 cast wraps modulo 256, with no range check -/

/-- C10.  The stored byte is the truncated quotient reduced modulo 256, with
no range check: at `value = 1`, `min = -1`, `max = 1` (a negative minimum
with a positive maximum) the range check passes, the computed quotient is
510, which exceeds 255, and the stored byte is `510 % 256 = 254` rather than
a clamped or rejected value. -/
theorem uint8_wraparound_no_range_check :
    (∀ v mn mx : ℚ,
      value_normalized v mn mx = ((ratTrunc ((v - mn) / mx * 255)) % 256).toNat)
    ∧ value_within_range 1 (-1) 1 = true
    ∧ ((1 - (-1)) / 1 * 255 : ℚ) = 510
    ∧ (255 : ℤ) < 510
    ∧ value_normalized 1 (-1) 1 = 254
    ∧ (510 : ℤ) % 256 = 254 := by
  refine ⟨fun v mn mx => rfl, ?_, by norm_num, by decide, ?_, by decide⟩
  · rw [value_within_range_eq]
    have h : mathIsClose 1 1 = true := by
      simp only [mathIsClose, decide_eq_true_eq]
      norm_num
    simp [h]
  · simp only [value_normalized, np_uint8, ratTrunc]
    norm_num
    rfl

/-! ## C8: monotonicity of the normalizer -/

/-- C8 (counterexample).  With `min = -2 < 1 = max`, both 0 and 1 pass the
range check and `0 ≤ 1`, yet the code normalizes 0 to 254 and 1 to 253:
`value_normalized` is not monotonic non-decreasing on the accepted range. -/
theorem normalize_not_monotone :
    ((-2 : ℚ) < 1) ∧
    value_within_range 0 (-2) 1 = true ∧
    value_within_range 1 (-2) 1 = true ∧
    ((0 : ℚ) ≤ 1) ∧
    value_normalized 0 (-2) 1 = 254 ∧
    value_normalized 1 (-2) 1 = 253 ∧
    ¬(value_normalized 0 (-2) 1 ≤ value_normalized 1 (-2) 1) := by
  have h0 : value_normalized 0 (-2) 1 = 254 := by
    simp only [value_normalized, np_uint8, ratTrunc]
    norm_num
    rfl
  have h1 : value_normalized 1 (-2) 1 = 253 := by
    simp only [value_normalized, np_uint8, ratTrunc]
    norm_num
    rfl
  refine ⟨by norm_num, ?_, ?_, by norm_num, h0, h1, ?_⟩
  · rw [value_within_range_eq]
    simp only [Bool.or_eq_true, Bool.and_eq_true, decide_eq_true_eq]
    right
    norm_num
  · rw [value_within_range_eq]
    have h : mathIsClose 1 1 = true := by
      simp only [mathIsClose, decide_eq_true_eq]
      norm_num
    simp [h]
  · rw [h0, h1]
    decide

/-- The uint8 cast is monotone on quotients in `(-1, 256)`: there the
truncation sends `(-1, 0)` to 0 and `[0, 256)` to the floor, and the
modulo-256 wrap never fires. -/
theorem np_uint8_mono (q1 q2 : ℚ) (hl : -1 < q1) (h12 : q1 ≤ q2)
    (hu : q2 < 256) : np_uint8 q1 ≤ np_uint8 q2 := by
  by_cases hq1 : 0 ≤ q1
  · have hq2 : 0 ≤ q2 := le_trans hq1 h12
    simp only [np_uint8, ratTrunc, if_pos hq1, if_pos hq2]
    have hf1 : (0 : ℤ) ≤ ⌊q1⌋ := Int.floor_nonneg.mpr hq1
    have hf2 : ⌊q2⌋ < 256 := Int.floor_lt.mpr (by exact_mod_cast hu)
    have hmono : ⌊q1⌋ ≤ ⌊q2⌋ := Int.floor_le_floor h12
    rw [Int.emod_eq_of_lt hf1 (by omega),
      Int.emod_eq_of_lt (le_trans hf1 hmono) (by omega)]
    omega
  · push_neg at hq1
    have hceil : ⌈q1⌉ = 0 := by
      have hc1 : ⌈q1⌉ ≤ 0 := Int.ceil_le.mpr (by exact_mod_cast le_of_lt hq1)
      have hc2 : (-1 : ℤ) < ⌈q1⌉ := Int.lt_ceil.mpr (by exact_mod_cast hl)
      omega
    have hz : np_uint8 q1 = 0 := by
      simp [np_uint8, ratTrunc, if_neg (not_le.mpr hq1), hceil]
    rw [hz]
    exact Nat.zero_le _

/-- For a nonnegative minimum, every value accepted by the range check keeps
the code's quotient `(v - min)/max * 255` strictly inside `(-1, 256)`
(stated scaled by `max`): the 1e-5 relative tolerance can push it only about
0.0026 below 0 or above 255. -/
theorem accepted_scaled_bounds (v mn mx : ℚ) (hmn : 0 ≤ mn) (hlt : mn < mx)
    (hacc : value_within_range v mn mx = true) :
    -mx < 255 * (v - mn) ∧ 255 * (v - mn) < 256 * mx := by
  have hmx : 0 < mx := lt_of_le_of_lt hmn hlt
  rw [value_within_range_eq] at hacc
  simp only [Bool.or_eq_true, Bool.and_eq_true, decide_eq_true_eq,
    mathIsClose] at hacc
  rcases hacc with (hcl | hcl) | ⟨hlo, hhi⟩
  · have hA0 : (0 : ℚ) ≤ |v - mn| := abs_nonneg _
    have hmaxb : max |v| |mn| ≤ |v - mn| + mn := by
      refine max_le ?_ ?_
      · calc |v| = |(v - mn) + mn| := by ring_nf
          _ ≤ |v - mn| + |mn| := abs_add _ _
          _ = |v - mn| + mn := by rw [abs_of_nonneg hmn]
      · rw [abs_of_nonneg hmn]
        linarith
    have h2 : |v - mn| ≤ 1/100000 * (|v - mn| + mn) :=
      le_trans hcl (mul_le_mul_of_nonneg_left hmaxb (by norm_num))
    have hA : 99999 * |v - mn| ≤ mn := by linarith
    have hAlt : 255 * |v - mn| < mx := by linarith
    obtain ⟨hl, hr⟩ := abs_lt.mp (show |v - mn| < mx / 255 by linarith)
    constructor <;> linarith
  · have hB0 : (0 : ℚ) ≤ |v - mx| := abs_nonneg _
    have hmaxb : max |v| |mx| ≤ |v - mx| + mx := by
      refine max_le ?_ ?_
      · calc |v| = |(v - mx) + mx| := by ring_nf
          _ ≤ |v - mx| + |mx| := abs_add _ _
          _ = |v - mx| + mx := by rw [abs_of_nonneg hmx.le]
      · rw [abs_of_nonneg hmx.le]
        linarith
    have h2 : |v - mx| ≤ 1/100000 * (|v - mx| + mx) :=
      le_trans hcl (mul_le_mul_of_nonneg_left hmaxb (by norm_num))
    have hB : 99999 * |v - mx| ≤ mx := by linarith
    obtain ⟨hl, hr⟩ := abs_le.mp (show |v - mx| ≤ mx / 99999 by linarith)
    constructor <;> linarith
  · constructor <;> linarith

/-- C8 (amended).  The counterexample needs a negative minimum: whenever the
modality minimum is nonnegative (`0 ≤ min < max`), the normalizer is
monotonic non-decreasing in the value across the entire tolerance-accepted
range, since the quotient stays inside `(-1, 256)` and the uint8 wrap never
fires. -/
theorem normalize_monotone_nonneg_min (mn mx v1 v2 : ℚ) (hmn : 0 ≤ mn)
    (hlt : mn < mx)
    (h1 : value_within_range v1 mn mx = true)
    (h2 : value_within_range v2 mn mx = true) (h12 : v1 ≤ v2) :
    value_normalized v1 mn mx ≤ value_normalized v2 mn mx := by
  have hmx : 0 < mx := lt_of_le_of_lt hmn hlt
  obtain ⟨hl1, hu1⟩ := accepted_scaled_bounds v1 mn mx hmn hlt h1
  obtain ⟨hl2, hu2⟩ := accepted_scaled_bounds v2 mn mx hmn hlt h2
  have hq : ∀ v : ℚ, (v - mn) / mx * 255 = 255 * (v - mn) / mx := by
    intro v
    ring
  rw [value_normalized, value_normalized, hq v1, hq v2]
  apply np_uint8_mono
  · exact (lt_div_iff₀ hmx).mpr (by linarith)
  · gcongr
  · exact (div_lt_iff₀ hmx).mpr (by linarith)

/-- Witness for the amended C8 at a nonzero minimum: range `[1, 2]`, values
1 and 3/2. -/
theorem normalize_monotone_nonneg_min_witness :
    value_normalized 1 1 2 ≤ value_normalized (3/2) 1 2 :=
  normalize_monotone_nonneg_min 1 2 1 (3/2) (by norm_num) (by norm_num)
    (by rw [value_within_range_eq]
        simp only [Bool.or_eq_true, Bool.and_eq_true, decide_eq_true_eq]
        right
        norm_num)
    (by rw [value_within_range_eq]
        simp only [Bool.or_eq_true, Bool.and_eq_true, decide_eq_true_eq]
        right
        norm_num)
    (by norm_num)

/-! ## C9: protein-expression value coercion -/

/-- C9.  When `float()` fails on an entry value, the recognized header
sentinel `"Protein Expression"` is silently skipped, while any other
unparseable value raises a fatal parse error for that record. -/
theorem prot_value_coercion (pyFloat : String → Option ℚ) (s : String)
    (h : pyFloat s = none) :
    (s = "Protein Expression" → coerceProtValue pyFloat s = .ok none) ∧
    (s ≠ "Protein Expression" →
      coerceProtValue pyFloat s =
        .error ("Cannot parse the following value as float: " ++ s)) := by
  constructor <;> intro hs
  · subst hs
    simp [coerceProtValue, h]
  · simp [coerceProtValue, h, hs]

/-- Witness for C9: an unparseable non-sentinel value is a fatal error. -/
theorem prot_value_coercion_witness :
    coerceProtValue (fun _ => none) "N/A" =
      .error ("Cannot parse the following value as float: N/A") :=
  (prot_value_coercion (fun _ => none) "N/A" rfl).2 (by decide)

/-! ## C4: gene resolution picks the unique highest version -/

/-- C4.  With no candidate record the gene is skipped without raising; when
exactly one record attains the maximum version it is selected; when two or
more tie at the maximum the gene is skipped without raising. -/
theorem gene_resolution_policy :
    (gene_to_interval_resolve [] = .ok none)
    ∧ (∀ (entries : List GtfEntry) (e : GtfEntry),
        entries.filter (fun x => x.gene_version == maxVersion entries) = [e] →
        gene_to_interval_resolve entries = .ok (some e))
    ∧ (∀ entries : List GtfEntry,
        2 ≤ (entries.filter (fun x => x.gene_version == maxVersion entries)).length →
        gene_to_interval_resolve entries = .ok none) := by
  refine ⟨rfl, ?_, ?_⟩
  · intro entries e hf
    match entries with
    | [] => simp at hf
    | [a] =>
      have ha : (List.filter (fun x => x.gene_version == maxVersion [a]) [a]) = [a] := by
        simp [maxVersion, pyMax]
      rw [ha] at hf
      cases hf
      rfl
    | e1 :: e2 :: rest =>
      simp only [gene_to_interval_resolve]
      rw [hf]
  · intro entries hlen
    match entries with
    | [] => simp at hlen
    | [a] =>
      have : (List.filter (fun x => x.gene_version == maxVersion [a]) [a]).length ≤ 1 := by
        have := List.length_filter_le (fun x => x.gene_version == maxVersion [a]) [a]
        simpa using this
      omega
    | e1 :: e2 :: rest =>
      simp only [gene_to_interval_resolve]
      match hf : (e1 :: e2 :: rest).filter
          (fun x => x.gene_version == maxVersion (e1 :: e2 :: rest)) with
      | [] => rw [hf] at hlen; simp at hlen
      | [a] => rw [hf] at hlen; simp at hlen
      | a :: b :: l => rw [hf]

/-- Witness for C4: versions 1 and 2 resolve to the version-2 record. -/
theorem gene_resolution_policy_witness :
    gene_to_interval_resolve [entryV1, entryV2] = .ok (some entryV2) :=
  gene_resolution_policy.2.1 [entryV1, entryV2] entryV2 (by decide)

/-! ## C6/C7: breakpoint set builder -/

/-- Membership after inserting a single coordinate. -/
theorem mem_insertCoord (bps : BreakpointSet) (chrom : String) (x : ℕ)
    (c : String) (y : ℕ) :
    y ∈ insertCoord bps chrom x c ↔ y ∈ bps c ∨ (c = chrom ∧ y = x) := by
  simp only [insertCoord]
  by_cases h : c = chrom
  · subst h
    simp [Finset.mem_insert]
    tauto
  · simp [h]

/-- Membership after inserting both coordinates of one interval key. -/
theorem mem_insertIntervalKey (bps : BreakpointSet) (chrom : String)
    (ss : ℕ × ℕ) (c : String) (y : ℕ) :
    y ∈ insertIntervalKey bps chrom ss c ↔
      y ∈ bps c ∨ (c = chrom ∧ (y = ss.1 ∨ y = ss.2)) := by
  simp only [insertIntervalKey, mem_insertCoord]
  tauto

/-- Membership after processing one chromosome entry of a collection. -/
theorem mem_insertChromEntry (bps : BreakpointSet) (e : String × List (ℕ × ℕ))
    (c : String) (y : ℕ) :
    y ∈ insertChromEntry bps e c ↔
      y ∈ bps c ∨ (c = e.1 ∧ ∃ ss ∈ e.2, y = ss.1 ∨ y = ss.2) := by
  simp only [insertChromEntry]
  induction e.2 generalizing bps with
  | nil => simp
  | cons p pts ih =>
    rw [List.foldl_cons, ih, mem_insertIntervalKey]
    simp only [List.mem_cons]
    constructor
    · rintro ((hb | ⟨hc, hp⟩) | ⟨hc, ss, hss, hy⟩)
      · exact Or.inl hb
      · exact Or.inr ⟨hc, p, Or.inl rfl, hp⟩
      · exact Or.inr ⟨hc, ss, Or.inr hss, hy⟩
    · rintro (hb | ⟨hc, ss, (rfl | hss), hy⟩)
      · exact Or.inl (Or.inl hb)
      · exact Or.inl (Or.inr ⟨hc, hy⟩)
      · exact Or.inr ⟨hc, ss, hss, hy⟩

/-- Membership after processing one whole collection. -/
theorem mem_insertColl (bps : BreakpointSet) (coll : IntervalColl)
    (c : String) (y : ℕ) :
    y ∈ insertColl bps coll c ↔
      y ∈ bps c ∨ ∃ e ∈ coll, c = e.1 ∧ ∃ ss ∈ e.2, y = ss.1 ∨ y = ss.2 := by
  simp only [insertColl]
  induction coll generalizing bps with
  | nil => simp
  | cons e coll ih =>
    rw [List.foldl_cons, ih, mem_insertChromEntry]
    simp only [List.mem_cons]
    constructor
    · rintro ((hb | he) | ⟨e2, he2, hrest⟩)
      · exact Or.inl hb
      · exact Or.inr ⟨e, Or.inl rfl, he⟩
      · exact Or.inr ⟨e2, Or.inr he2, hrest⟩
    · rintro (hb | ⟨e2, (rfl | he2), hrest⟩)
      · exact Or.inl (Or.inl hb)
      · exact Or.inl (Or.inr hrest)
      · exact Or.inr ⟨e2, he2, hrest⟩

/-- Membership in the final breakpoint set. -/
theorem mem_buildBreakpoints (colls : List IntervalColl) (c : String) (y : ℕ) :
    y ∈ buildBreakpoints colls c ↔
      ∃ coll ∈ colls, ∃ e ∈ coll, c = e.1 ∧ ∃ ss ∈ e.2, y = ss.1 ∨ y = ss.2 := by
  have general : ∀ (cs : List IntervalColl) (bps : BreakpointSet),
      y ∈ (cs.foldl insertColl bps) c ↔
        y ∈ bps c ∨ ∃ coll ∈ cs, ∃ e ∈ coll, c = e.1 ∧ ∃ ss ∈ e.2, y = ss.1 ∨ y = ss.2 := by
    intro cs
    induction cs with
    | nil => simp
    | cons coll cs ih =>
      intro bps
      rw [List.foldl_cons, ih, mem_insertColl]
      simp only [List.mem_cons]
      constructor
      · rintro ((hb | hcoll) | ⟨coll2, hc2, hrest⟩)
        · exact Or.inl hb
        · exact Or.inr ⟨coll, Or.inl rfl, hcoll⟩
        · exact Or.inr ⟨coll2, Or.inr hc2, hrest⟩
      · rintro (hb | ⟨coll2, (rfl | hc2), hrest⟩)
        · exact Or.inl (Or.inl hb)
        · exact Or.inl (Or.inr hrest)
        · exact Or.inr ⟨coll2, hc2, hrest⟩
  rw [buildBreakpoints, general]
  simp

/-- C6.  Building the breakpoint set from a permutation of the same interval
collections yields an identical final breakpoint set: insertion into the
per-chromosome sets is idempotent and commutative. -/
theorem breakpoint_build_perm_invariant (colls1 colls2 : List IntervalColl)
    (h : colls1.Perm colls2) :
    buildBreakpoints colls1 = buildBreakpoints colls2 := by
  funext c
  ext y
  rw [mem_buildBreakpoints, mem_buildBreakpoints]
  constructor
  · rintro ⟨coll, hc, rest⟩
    exact ⟨coll, h.mem_iff.mp hc, rest⟩
  · rintro ⟨coll, hc, rest⟩
    exact ⟨coll, h.mem_iff.mpr hc, rest⟩

/-- Witness for C6: two concrete collections in both orders. -/
theorem breakpoint_build_perm_invariant_witness :
    buildBreakpoints [collA, collB] = buildBreakpoints [collB, collA] :=
  breakpoint_build_perm_invariant [collA, collB] [collB, collA]
    (List.Perm.swap collB collA [])

/-- C7.  The breakpoint set built from the supplied collections contains both
the start and the stop coordinate of every interval of every collection, in
the entry for that interval's chromosome. -/
theorem breakpoint_build_complete (colls : List IntervalColl)
    (coll : IntervalColl) (e : String × List (ℕ × ℕ)) (ss : ℕ × ℕ)
    (hcoll : coll ∈ colls) (he : e ∈ coll) (hss : ss ∈ e.2) :
    ss.1 ∈ buildBreakpoints colls e.1 ∧ ss.2 ∈ buildBreakpoints colls e.1 := by
  constructor <;> rw [mem_buildBreakpoints]
  · exact ⟨coll, hcoll, e, he, rfl, ss, hss, Or.inl rfl⟩
  · exact ⟨coll, hcoll, e, he, rfl, ss, hss, Or.inr rfl⟩

/-- Witness for C7 on a concrete collection: both 9 and 14 land in the
`"chr1"` entry. -/
theorem breakpoint_build_complete_witness :
    (9 : ℕ) ∈ buildBreakpoints collsC "chr1" ∧
    (14 : ℕ) ∈ buildBreakpoints collsC "chr1" :=
  breakpoint_build_complete collsC [("chr1", [(2, 9), (9, 14)])]
    ("chr1", [(2, 9), (9, 14)]) (9, 14)
    (by simp [collsC]) (by simp) (by simp)

/-! ## C5: breakpoint artifact round-trip -/

/-- Facts about the ten decimal digit characters. -/
theorem digitChar_spec (d : ℕ) (hd : d < 10) :
    (Nat.digitChar d).isDigit = true ∧ (Nat.digitChar d).toNat - 48 = d := by
  interval_cases d <;> exact ⟨rfl, rfl⟩

/-- A digit character is none of the artifact's structural characters. -/
theorem isDigit_not_structural (c : Char) (h : c.isDigit = true) :
    c ≠ ',' ∧ c ≠ ':' ∧ c ≠ '\n' ∧ isPyWS c = false := by
  refine ⟨?_, ?_, ?_, ?_⟩
  · rintro rfl; simp [Char.isDigit] at h
  · rintro rfl; simp [Char.isDigit] at h
  · rintro rfl; simp [Char.isDigit] at h
  · by_contra hw
    simp only [Bool.not_eq_false, isPyWS, Bool.or_eq_true, beq_iff_eq] at hw
    rcases hw with ((rfl | rfl) | rfl) | rfl <;> simp [Char.isDigit] at h

/-- `natToCharsAux` computes the decimal digits, most significant first. -/
theorem natToCharsAux_eq_digits :
    ∀ (fuel n : ℕ), n ≤ fuel →
      natToCharsAux fuel n = ((Nat.digits 10 n).reverse).map Nat.digitChar := by
  intro fuel
  induction fuel with
  | zero =>
    intro n hn
    interval_cases n
    simp [natToCharsAux]
  | succ fuel ih =>
    intro n hn
    match n with
    | 0 => simp [natToCharsAux]
    | m + 1 =>
      have hdiv : (m + 1) / 10 ≤ fuel := by
        have := Nat.div_lt_self (Nat.succ_pos m) (by norm_num : 1 < 10)
        omega
      rw [natToCharsAux, ih _ hdiv,
        Nat.digits_def' (by norm_num : 1 < 10) (Nat.succ_pos m)]
      simp

/-- `natToChars` in terms of `Nat.digits`. -/
theorem natToChars_eq_digits (n : ℕ) (hn : n ≠ 0) :
    natToChars n = ((Nat.digits 10 n).reverse).map Nat.digitChar := by
  rw [natToChars, if_neg hn, natToCharsAux_eq_digits n n le_rfl]

/-- `str(n)` is never empty. -/
theorem natToChars_ne_nil (n : ℕ) : natToChars n ≠ [] := by
  by_cases hn : n = 0
  · subst hn; simp [natToChars]
  · rw [natToChars_eq_digits n hn]
    simp [Nat.digits_ne_nil_iff_ne_zero.mpr hn]

/-- Every character of `str(n)` is a decimal digit. -/
theorem natToChars_all_digits (n : ℕ) (c : Char) (hc : c ∈ natToChars n) :
    c.isDigit = true := by
  by_cases hn : n = 0
  · subst hn
    simp [natToChars] at hc
    subst hc
    rfl
  · rw [natToChars_eq_digits n hn] at hc
    simp only [List.mem_map, List.mem_reverse] at hc
    obtain ⟨d, hd, rfl⟩ := hc
    exact (digitChar_spec d (Nat.digits_lt_base (by norm_num) hd)).1

/-- The decimal accumulator fold recovers the number from its digit
characters. -/
theorem foldl_digit_chars :
    ∀ (bs : List ℕ) (a : ℕ), (∀ d ∈ bs, d < 10) →
      List.foldl (fun x c => x * 10 + (c.toNat - 48)) a (bs.map Nat.digitChar) =
        a * 10 ^ bs.length + Nat.ofDigits 10 bs.reverse := by
  intro bs
  induction bs with
  | nil => intro a _; simp [Nat.ofDigits_nil]
  | cons d bs ih =>
    intro a hlt
    have hd : d < 10 := hlt d (List.mem_cons_self d bs)
    have hstep : a * 10 + ((Nat.digitChar d).toNat - 48) = a * 10 + d := by
      rw [(digitChar_spec d hd).2]
    rw [List.map_cons, List.foldl_cons, hstep,
      ih (a * 10 + d) (fun x hx => hlt x (List.mem_cons_of_mem d hx))]
    rw [List.reverse_cons, Nat.ofDigits_append, Nat.ofDigits_singleton]
    simp only [List.length_cons, List.length_reverse]
    ring

/-- Round-trip for a single coordinate: `int(str(n)) = n`. -/
theorem parseNat_natToChars (n : ℕ) : parseNat (natToChars n) = some n := by
  by_cases hn : n = 0
  · subst hn; decide
  · have hne : natToChars n ≠ [] := natToChars_ne_nil n
    have hall : (natToChars n).all Char.isDigit = true := by
      rw [List.all_eq_true]
      intro c hc
      exact natToChars_all_digits n c hc
    rw [parseNat, if_pos ⟨hne, hall⟩]
    rw [natToChars_eq_digits n hn, foldl_digit_chars _ 0
      (fun d hd => Nat.digits_lt_base (by norm_num)
        (List.mem_reverse.mp hd))]
    simp [Nat.ofDigits_digits]

/-- `splitOnChar` never returns the empty list of pieces. -/
theorem splitOnChar_ne_nil (sep : Char) (l : List Char) :
    splitOnChar sep l ≠ [] := by
  induction l with
  | nil => simp [splitOnChar]
  | cons c rest ih =>
    rw [splitOnChar]
    by_cases h : c = sep
    · simp [h]
    · simp only [if_neg h]
      match hr : splitOnChar sep rest with
      | [] => exact absurd hr ih
      | p :: ps => simp

/-- Splitting a separator-free string yields a single piece. -/
theorem splitOnChar_of_not_mem (sep : Char) (l : List Char) (h : sep ∉ l) :
    splitOnChar sep l = [l] := by
  induction l with
  | nil => rfl
  | cons c rest ih =>
    have hc : c ≠ sep := fun hcs => h (hcs ▸ List.mem_cons_self c rest)
    have hrest : sep ∉ rest := fun hs => h (List.mem_cons_of_mem c hs)
    rw [splitOnChar, if_neg hc, ih hrest]

/-- Splitting distributes over the first separator occurrence. -/
theorem splitOnChar_append (sep : Char) (a b : List Char) (h : sep ∉ a) :
    splitOnChar sep (a ++ sep :: b) = a :: splitOnChar sep b := by
  induction a with
  | nil => simp [splitOnChar]
  | cons c rest ih =>
    have hc : c ≠ sep := fun hcs => h (hcs ▸ List.mem_cons_self c rest)
    have hrest : sep ∉ rest := fun hs => h (List.mem_cons_of_mem c hs)
    rw [List.cons_append, splitOnChar, if_neg hc, ih hrest]

/-- The join of a single piece is that piece. -/
theorem intercalateChar_singleton (sep : Char) (p : List Char) :
    intercalateChar sep [p] = p := rfl

/-- The join of at least two pieces starts with the first piece and the
separator. -/
theorem intercalateChar_cons_cons (sep : Char) (p q : List Char)
    (ps : List (List Char)) :
    intercalateChar sep (p :: q :: ps) = p ++ sep :: intercalateChar sep (q :: ps) := rfl

/-- Splitting the join of separator-free pieces recovers the pieces. -/
theorem splitOnChar_intercalate (sep : Char) :
    ∀ ps : List (List Char), ps ≠ [] → (∀ p ∈ ps, sep ∉ p) →
      splitOnChar sep (intercalateChar sep ps) = ps := by
  intro ps
  induction ps with
  | nil => intro h; exact absurd rfl h
  | cons p ps ih =>
    intro _ hall
    match ps, ih with
    | [], _ =>
      rw [intercalateChar_singleton]
      exact splitOnChar_of_not_mem sep p (hall p (List.mem_cons_self p []))
    | q :: ps2, ih =>
      rw [intercalateChar_cons_cons, splitOnChar_append sep p _
        (hall p (List.mem_cons_self p (q :: ps2)))]
      rw [ih (List.cons_ne_nil q ps2) (fun x hx => hall x (List.mem_cons_of_mem p hx))]

/-- Every character of a join is the separator or comes from a piece. -/
theorem mem_intercalateChar (sep : Char) :
    ∀ (ps : List (List Char)) (c : Char), c ∈ intercalateChar sep ps →
      c = sep ∨ ∃ p ∈ ps, c ∈ p := by
  intro ps
  induction ps with
  | nil => intro c hc; simp [intercalateChar] at hc
  | cons p ps ih =>
    intro c hc
    match ps, ih with
    | [], _ =>
      rw [intercalateChar_singleton] at hc
      exact Or.inr ⟨p, List.mem_cons_self p [], hc⟩
    | q :: ps2, ih =>
      rw [intercalateChar_cons_cons, List.mem_append] at hc
      rcases hc with hp | hs
      · exact Or.inr ⟨p, List.mem_cons_self p _, hp⟩
      · rcases List.mem_cons.mp hs with rfl | hrest
        · exact Or.inl rfl
        · rcases ih c hrest with hsep | ⟨r, hr, hcr⟩
          · exact Or.inl hsep
          · exact Or.inr ⟨r, List.mem_cons_of_mem p hr, hcr⟩

/-- A join of nonempty pieces (at least one) is nonempty. -/
theorem intercalateChar_ne_nil (sep : Char) (p : List Char) (ps : List (List Char))
    (hp : p ≠ []) : intercalateChar sep (p :: ps) ≠ [] := by
  match ps with
  | [] => rw [intercalateChar_singleton]; exact hp
  | q :: ps2 =>
    rw [intercalateChar_cons_cons]
    simp

/-- The last character of a join of nonempty pieces is the last character of
the last piece. -/
theorem getLast?_intercalateChar (sep : Char) :
    ∀ (ps : List (List Char)) (p : List Char), (∀ x ∈ ps, x ≠ []) →
      ps.getLast? = some p →
      (intercalateChar sep ps).getLast? = p.getLast? := by
  intro ps
  induction ps with
  | nil => intro p _ hl; simp at hl
  | cons x ps ih =>
    intro p hall hl
    match ps, ih with
    | [], _ =>
      simp only [List.getLast?_singleton, Option.some.injEq] at hl
      subst hl
      rw [intercalateChar_singleton]
    | q :: ps2, ih =>
      rw [List.getLast?_cons_cons] at hl
      rw [intercalateChar_cons_cons,
        List.getLast?_append_of_ne_nil x (List.cons_ne_nil sep _)]
      have hq : intercalateChar sep (q :: ps2) ≠ [] :=
        intercalateChar_ne_nil sep q ps2 (hall q (List.mem_cons_of_mem x (List.mem_cons_self q ps2)))
      have hsepcons : (sep :: intercalateChar sep (q :: ps2)).getLast? =
          (intercalateChar sep (q :: ps2)).getLast? := by
        have hrw : sep :: intercalateChar sep (q :: ps2) =
            [sep] ++ intercalateChar sep (q :: ps2) := rfl
        rw [hrw, List.getLast?_append_of_ne_nil [sep] hq]
      rw [hsepcons, ih p (fun y hy => hall y (List.mem_cons_of_mem x hy)) hl]

/-- Unfolding equation of `splitColonSpace` on a string of length at least
two. -/
theorem splitColonSpace_cons_cons (c1 c2 : Char) (rest : List Char) :
    splitColonSpace (c1 :: c2 :: rest) =
      if c1 = ':' ∧ c2 = ' ' then [] :: splitColonSpace rest
      else
        match splitColonSpace (c2 :: rest) with
        | [] => [[c1]]
        | p :: ps => (c1 :: p) :: ps := by
  rw [splitColonSpace.eq_def]

/-- `splitColonSpace` of a colon-free string is the whole string. -/
theorem splitColonSpace_of_not_mem :
    ∀ l : List Char, ':' ∉ l → splitColonSpace l = [l] := by
  intro l
  induction l with
  | nil => intro _; rfl
  | cons c rest ih =>
    intro h
    have hc : c ≠ ':' := fun hcs => h (hcs ▸ List.mem_cons_self c rest)
    have hrest : ':' ∉ rest := fun hs => h (List.mem_cons_of_mem c hs)
    match rest, ih, hrest with
    | [], _, _ => rfl
    | d :: rest2, ih, hrest =>
      rw [splitColonSpace_cons_cons, if_neg (fun hand => hc hand.1), ih hrest]

/-- `splitColonSpace` cuts at the separator after a colon-free prefix. -/
theorem splitColonSpace_append :
    ∀ (a : List Char), ':' ∉ a → ∀ b : List Char,
      splitColonSpace (a ++ ':' :: ' ' :: b) = a :: splitColonSpace b := by
  intro a
  induction a with
  | nil =>
    intro _ b
    rw [List.nil_append, splitColonSpace_cons_cons, if_pos ⟨rfl, rfl⟩]
  | cons c t ih =>
    intro h b
    have hc : c ≠ ':' := fun hcs => h (hcs ▸ List.mem_cons_self c t)
    have ht : ':' ∉ t := fun hs => h (List.mem_cons_of_mem c hs)
    match t, ih, ht with
    | [], _, _ =>
      rw [List.cons_append, List.nil_append, splitColonSpace_cons_cons,
        if_neg (fun hand => hc hand.1), splitColonSpace_cons_cons,
        if_pos ⟨rfl, rfl⟩]
    | d :: t2, ih, ht =>
      have hrec := ih ht b
      simp only [List.cons_append] at hrec ⊢
      rw [splitColonSpace_cons_cons, if_neg (fun hand => hc hand.1), hrec]

/-- A list's last element (via `getLast?`) is a member. -/
theorem getLast?_mem_self {α : Type} (l : List α) (a : α) (h : l.getLast? = some a) :
    a ∈ l := by
  have ha : a ∈ l.getLast? := by rw [h]; rfl
  obtain ⟨hne, heq⟩ := List.mem_getLast?_eq_getLast ha
  rw [heq]
  exact List.getLast_mem hne

/-- `rstrip` is the identity on a string whose last character is not
whitespace. -/
theorem rstrip_eq_self (l : List Char) (c : Char) (hl : l.getLast? = some c)
    (hc : isPyWS c = false) : rstrip l = l := by
  have hrev : l.reverse.head? = some c := by rw [List.head?_reverse]; exact hl
  match hrl : l.reverse with
  | [] => rw [hrl] at hrev; exact absurd hrev (by simp)
  | c2 :: t =>
    rw [hrl] at hrev
    simp only [List.head?_cons, Option.some.injEq] at hrev
    subst hrev
    rw [rstrip, hrl, List.dropWhile_cons, hc]
    simp only [Bool.false_eq_true, if_false]
    rw [← hrl, List.reverse_reverse]

/-- Inserting below every element of a list prepends. -/
theorem insertSorted_of_le (x : ℕ) (l : List ℕ) (h : ∀ y ∈ l, x ≤ y) :
    insertSorted x l = x :: l := by
  match l with
  | [] => rfl
  | y :: ys => rw [insertSorted, if_pos (h y (List.mem_cons_self y ys))]

/-- `SortedList` leaves an already-sorted sequence unchanged. -/
theorem sortNat_of_sorted (l : List ℕ) (h : List.Sorted (· < ·) l) :
    sortNat l = l := by
  induction l with
  | nil => rfl
  | cons a l ih =>
    rw [List.sorted_cons] at h
    show insertSorted a (sortNat l) = a :: l
    rw [ih h.2, insertSorted_of_le a l (fun y hy => le_of_lt (h.1 y hy))]

/-- Parsing the printed coordinates recovers them. -/
theorem parseNats_map_natToChars (coords : List ℕ) :
    parseNats (coords.map natToChars) = some coords := by
  induction coords with
  | nil => rfl
  | cons n ns ih =>
    rw [List.map_cons, parseNats, parseNat_natToChars, ih]

/-- Characters of the joined coordinate text are commas or digits. -/
theorem mem_pts_comma_or_digit (coords : List ℕ) (c : Char)
    (hc : c ∈ intercalateChar ',' (coords.map natToChars)) :
    c = ',' ∨ c.isDigit = true := by
  rcases mem_intercalateChar ',' _ c hc with h | ⟨p, hp, hcp⟩
  · exact Or.inl h
  · obtain ⟨m, _, rfl⟩ := List.mem_map.mp hp
    exact Or.inr (natToChars_all_digits m c hcp)

/-- For a nonempty coordinate list the joined coordinate text is nonempty
and ends in a digit character. -/
theorem pts_getLast_digit (coords : List ℕ) (hne : coords ≠ []) :
    intercalateChar ',' (coords.map natToChars) ≠ [] ∧
    ∃ c, (intercalateChar ',' (coords.map natToChars)).getLast? = some c ∧
      c.isDigit = true := by
  match coords, hne with
  | n :: ns, _ =>
    have hpieces : ((n :: ns).map natToChars) = natToChars n :: ns.map natToChars :=
      List.map_cons natToChars n ns
    have hallne : ∀ x ∈ (n :: ns).map natToChars, x ≠ [] := by
      intro x hx
      obtain ⟨m, _, rfl⟩ := List.mem_map.mp hx
      exact natToChars_ne_nil m
    have hne2 : intercalateChar ',' ((n :: ns).map natToChars) ≠ [] := by
      rw [hpieces]
      exact intercalateChar_ne_nil ',' (natToChars n) (ns.map natToChars)
        (natToChars_ne_nil n)
    refine ⟨hne2, ?_⟩
    have hplast : ∃ p, ((n :: ns).map natToChars).getLast? = some p := by
      exact ⟨_, List.getLast?_eq_getLast_of_ne_nil (by simp)⟩
    obtain ⟨p, hp⟩ := hplast
    have hpmem : p ∈ (n :: ns).map natToChars := getLast?_mem_self _ p hp
    obtain ⟨m, _, hpm⟩ := List.mem_map.mp hpmem
    have hpne : p ≠ [] := by rw [← hpm]; exact natToChars_ne_nil m
    obtain ⟨c, hcl⟩ : ∃ c, p.getLast? = some c :=
      ⟨_, List.getLast?_eq_getLast_of_ne_nil hpne⟩
    refine ⟨c, ?_, ?_⟩
    · rw [getLast?_intercalateChar ',' _ p hallne hp]
      exact hcl
    · have : c ∈ p := getLast?_mem_self p c hcl
      rw [← hpm] at this
      exact natToChars_all_digits m c this

/-- Round-trip for a single written line of the breakpoint artifact. -/
theorem parse_line_roundtrip (chrom : List Char) (coords : List ℕ)
    (hch : ':' ∉ chrom) (hne : coords ≠ [])
    (hsort : List.Sorted (· < ·) coords) :
    parse_breakpoint_line (breakpoint_line (chrom, coords)) = some (chrom, coords) := by
  obtain ⟨hptsne, c, hlast, hdig⟩ := pts_getLast_digit coords hne
  have hline : breakpoint_line (chrom, coords) =
      chrom ++ ':' :: ' ' :: intercalateChar ',' (coords.map natToChars) := rfl
  have hlinelast : (breakpoint_line (chrom, coords)).getLast? = some c := by
    rw [hline, List.getLast?_append_of_ne_nil chrom (List.cons_ne_nil _ _)]
    have hsplit2 : (':' :: ' ' :: intercalateChar ',' (coords.map natToChars)) =
        [':', ' '] ++ intercalateChar ',' (coords.map natToChars) := rfl
    rw [hsplit2, List.getLast?_append_of_ne_nil [':', ' '] hptsne, hlast]
  have hstrip : rstrip (breakpoint_line (chrom, coords)) =
      breakpoint_line (chrom, coords) :=
    rstrip_eq_self _ c hlinelast (isDigit_not_structural c hdig).2.2.2
  have hcolonpts : ':' ∉ intercalateChar ',' (coords.map natToChars) := by
    intro hmem
    rcases mem_pts_comma_or_digit coords ':' hmem with h | h
    · exact absurd h (by decide)
    · exact absurd rfl (isDigit_not_structural ':' h).2.1
  have hsplit : splitColonSpace (breakpoint_line (chrom, coords)) =
      [chrom, intercalateChar ',' (coords.map natToChars)] := by
    rw [hline, splitColonSpace_append chrom hch,
      splitColonSpace_of_not_mem _ hcolonpts]
  have hcommafree : ∀ p ∈ coords.map natToChars, ',' ∉ p := by
    intro p hp hmem
    obtain ⟨m, _, rfl⟩ := List.mem_map.mp hp
    have hd := natToChars_all_digits m ',' hmem
    exact absurd rfl (isDigit_not_structural ',' hd).1
  have hmapne : coords.map natToChars ≠ [] := by
    match coords, hne with
    | n :: ns, _ => simp
  have hsplitc : splitOnChar ',' (intercalateChar ',' (coords.map natToChars)) =
      coords.map natToChars :=
    splitOnChar_intercalate ',' _ hmapne hcommafree
  rw [parse_breakpoint_line, hstrip, hsplit]
  show (match parseNats (splitOnChar ','
      (intercalateChar ',' (coords.map natToChars))) with
    | some cs => some (chrom, sortNat cs)
    | none => none) = some (chrom, coords)
  rw [hsplitc, parseNats_map_natToChars]
  show some (chrom, sortNat coords) = some (chrom, coords)
  rw [sortNat_of_sorted coords hsort]

/-- A written line contains no newline character when the chromosome name
contains none. -/
theorem breakpoint_line_no_newline (e : List Char × List ℕ)
    (h : '\n' ∉ e.1) : '\n' ∉ breakpoint_line e := by
  intro hmem
  rw [breakpoint_line, List.mem_append] at hmem
  rcases hmem with hc | hrest
  · exact h hc
  · rcases List.mem_cons.mp hrest with heq | hrest2
    · exact absurd heq (by decide)
    · rcases List.mem_cons.mp hrest2 with heq | hpts
      · exact absurd heq (by decide)
      · rcases mem_pts_comma_or_digit e.2 '\n' hpts with heq | hd
        · exact absurd heq (by decide)
        · exact absurd rfl (isDigit_not_structural '\n' hd).2.2.1

/-- Splitting the written file on newlines yields the written lines plus one
trailing empty chunk. -/
theorem splitOnChar_write_file :
    ∀ lines : List (List Char), (∀ l ∈ lines, '\n' ∉ l) →
      splitOnChar '\n' (lines.foldr (fun l acc => l ++ '\n' :: acc) []) =
        lines ++ [[]] := by
  intro lines
  induction lines with
  | nil => intro _; rfl
  | cons l ls ih =>
    intro h
    rw [List.foldr_cons,
      splitOnChar_append '\n' l _ (h l (List.mem_cons_self l ls)),
      ih (fun x hx => h x (List.mem_cons_of_mem l hx))]
    rfl

/-- Python file iteration over the written artifact yields exactly the
written lines. -/
theorem fileLines_write (bps : List (List Char × List ℕ))
    (h : ∀ e ∈ bps, '\n' ∉ e.1) :
    fileLines (write_breakpoints_file bps) = bps.map breakpoint_line := by
  have hnolines : ∀ l ∈ bps.map breakpoint_line, '\n' ∉ l := by
    intro l hl
    obtain ⟨e, he, rfl⟩ := List.mem_map.mp hl
    exact breakpoint_line_no_newline e (h e he)
  rw [fileLines, write_breakpoints_file, splitOnChar_write_file _ hnolines]
  rw [List.getLast?_concat]
  simp only [if_pos rfl, if_true]
  rw [List.dropLast_concat]

/-- Parsing the written lines in order recovers the entries in order. -/
theorem parseLines_write (bps : List (List Char × List ℕ))
    (hnames : ∀ e ∈ bps, ':' ∉ e.1)
    (hcoords : ∀ e ∈ bps, e.2 ≠ [] ∧ List.Sorted (· < ·) e.2) :
    parseLines (bps.map breakpoint_line) = some bps := by
  induction bps with
  | nil => rfl
  | cons e es ih =>
    obtain ⟨chrom, coords⟩ := e
    rw [List.map_cons, parseLines,
      parse_line_roundtrip chrom coords
        (hnames (chrom, coords) (List.mem_cons_self _ _))
        (hcoords (chrom, coords) (List.mem_cons_self _ _)).1
        (hcoords (chrom, coords) (List.mem_cons_self _ _)).2,
      ih (fun x hx => hnames x (List.mem_cons_of_mem _ hx))
        (fun x hx => hcoords x (List.mem_cons_of_mem _ hx))]

/-- C5.  Writing a breakpoint mapping to the text artifact (one
`chromosome: coord1,coord2,...` line per chromosome, coordinates ascending)
and reading the artifact back yields, for every chromosome, exactly the
ordered sorted coordinate sequence that was written.  The chromosome names
are assumed newline- and colon-free and the per-chromosome coordinate lists
nonempty and strictly ascending, which is how the breakpoint set builder
produces them; `hkeys` records that a Python dict is written, so no
chromosome line repeats. -/
theorem breakpoints_roundtrip (bps : List (List Char × List ℕ))
    (_hkeys : (bps.map Prod.fst).Nodup)
    (hcoords : ∀ e ∈ bps, e.2 ≠ [] ∧ List.Sorted (· < ·) e.2)
    (hnames : ∀ e ∈ bps, ':' ∉ e.1 ∧ '\n' ∉ e.1) :
    read_breakpoints_file (write_breakpoints_file bps) = some bps := by
  rw [read_breakpoints_file,
    fileLines_write bps (fun e he => (hnames e he).2),
    parseLines_write bps (fun e he => (hnames e he).1) hcoords]

/-- Witness for C5 on a concrete two-chromosome breakpoint mapping. -/
theorem breakpoints_roundtrip_witness :
    read_breakpoints_file (write_breakpoints_file bpsW) = some bpsW :=
  breakpoints_roundtrip bpsW (by decide) (by decide) (by decide)

/-! ## C2: worked raster example -/

/-- When the range check passes and both coordinates are found in the
breakpoint list, the interval step fills the columns from the start index to
the stop index inclusive with the normalized value. -/
theorem processInterval_ok (bps : List ℕ) (mn mx : ℚ) (row : List ℕ)
    (s t : ℕ) (v : ℚ) (hv : value_within_range v mn mx = true)
    (si ti : ℕ) (hs : slIndex bps s = some si) (ht : slIndex bps t = some ti) :
    processInterval bps mn mx row (s, t, v) =
      .ok (fillRange row si ti (value_normalized v mn mx)) := by
  simp only [processInterval, hv, hs, ht]
  simp

/-- C2 (counterexample).  With breakpoints `{chr1: [0,10,20]}`, one CNV
interval `[0,10)` whose value 0 is the midpoint of the CNV range `(-1, 1)`,
the column span is indices 0 and 1 as claimed, but the written value is 255,
not approximately 127: the claim's normalized value fails for a range whose
minimum is not 0 (the divisor bug of `tcga_imaging.py:134`). -/
theorem midpoint_raster_counterexample :
    rasterizeRow [0, 10, 20] (-1) 1 [0, 0, 0] [(0, 10, 0)] = .ok [255, 255, 0] ∧
    ¬((125 : ℕ) ≤ 255 ∧ (255 : ℕ) ≤ 129) := by
  have hv : value_within_range 0 (-1) 1 = true := by
    rw [value_within_range_eq]
    simp only [Bool.or_eq_true, Bool.and_eq_true, decide_eq_true_eq]
    right
    norm_num
  have hn : value_normalized 0 (-1) 1 = 255 := by
    simp only [value_normalized, np_uint8, ratTrunc]
    norm_num
    rfl
  have hp : processInterval [0, 10, 20] (-1) 1 [0, 0, 0] (0, 10, 0) =
      .ok [255, 255, 0] := by
    rw [processInterval_ok [0, 10, 20] (-1) 1 [0, 0, 0] 0 10 0 hv 0 1
      (by decide) (by decide), hn]
    rfl
  refine ⟨?_, by decide⟩
  simp [rasterizeRow, List.foldlM, hp]

/-- C2 (amended).  With breakpoints `{chr1: [0,10,20]}` and a single CNV
interval `[0,10)` whose value is the midpoint of a CNV range `(0, max)` with
`0 < max`, the normalized value is 127 and the filled column span is exactly
the columns from the start coordinate's index 0 to the stop coordinate's
index 1, inclusive. -/
theorem midpoint_raster_amended (mx : ℚ) (hmx : 0 < mx) :
    value_normalized (mx / 2) 0 mx = 127 ∧
    slIndex [0, 10, 20] 0 = some 0 ∧
    slIndex [0, 10, 20] 10 = some 1 ∧
    rasterizeRow [0, 10, 20] 0 mx [0, 0, 0] [(0, 10, mx / 2)] =
      .ok [127, 127, 0] := by
  have hmx0 : mx ≠ 0 := ne_of_gt hmx
  have hv : value_within_range (mx / 2) 0 mx = true := by
    rw [value_within_range_eq]
    simp only [Bool.or_eq_true, Bool.and_eq_true, decide_eq_true_eq]
    right
    constructor
    · positivity
    · linarith
  have hq : (mx / 2 - 0) / mx * 255 = 255 / 2 := by
    field_simp
    ring
  have hn : value_normalized (mx / 2) 0 mx = 127 := by
    rw [value_normalized, hq]
    simp only [np_uint8, ratTrunc]
    norm_num
    rfl
  have hp : processInterval [0, 10, 20] 0 mx [0, 0, 0] (0, 10, mx / 2) =
      .ok [127, 127, 0] := by
    rw [processInterval_ok [0, 10, 20] 0 mx [0, 0, 0] 0 10 (mx / 2) hv 0 1
      (by decide) (by decide), hn]
    rfl
  refine ⟨hn, by decide, by decide, ?_⟩
  simp [rasterizeRow, List.foldlM, hp]

/-- Witness for the amended C2 at CNV range `(0, 2)`: the midpoint value 1
is normalized to 127 and fills columns 0 and 1. -/
theorem midpoint_raster_amended_witness :
    value_normalized ((2 : ℚ) / 2) 0 2 = 127 ∧
    slIndex [0, 10, 20] 0 = some 0 ∧
    slIndex [0, 10, 20] 10 = some 1 ∧
    rasterizeRow [0, 10, 20] 0 2 [0, 0, 0] [(0, 10, (2 : ℚ) / 2)] =
      .ok [127, 127, 0] :=
  midpoint_raster_amended 2 (by norm_num)
